import Mathlib

/-!
Verification of the disk_cleaner core pipeline (scanner.py, analyzer.py,
utils.py, duplicate_finder.py) via a shallow embedding.

Modelling conventions:
* File contents are byte lists (`List Nat`).  MD5 digests are modelled as an
  ideal (injective) hash: the digest of the first 4096 bytes is modelled as
  those bytes themselves, the full-file digest as the full content.  The empty
  string returned by `calculate_file_hash` on an I/O error is modelled as
  `none` (a real digest is never the empty string, so the `if partial_hash:`
  truthiness test in the source corresponds exactly to `Option.isSome`).
* A classified-file dict from analyzer.py is modelled by `Entry`: its
  `file_info` record together with the content the filesystem yields at its
  path (`none` models an unreadable file).  The `category`/`staleness_score`
  dict fields are never read by `find_duplicates` and are omitted from
  `Entry`.
* The `stop_flag` callable is modelled as a function from the poll index to
  `Bool`; an absent `stop_flag` is the constantly-false function (no poll in
  the source can then return true, which is observationally identical).
* The `progress_callback` invocations are recorded in an event list
  `(stage, current, total)`; they do not influence control flow in the
  source, so the model always records them.
* Python dicts preserve key insertion order; they are modelled as association
  lists where `addToGroup` appends to the bucket of an existing key (keeping
  key order) and `dictInsert` replaces the value at an existing key.
* Timestamps are integer seconds; `datetime.now() - dt` followed by
  `timedelta.days` is floor division of the elapsed seconds by 86400
  (`Int.fdiv`).  Python float arithmetic on `size / (1024*1024)` is modelled
  exactly in `ℚ` (the claims under verification only involve values where
  the float computation is exact in sign and order).
-/

namespace DiskCleaner

/-- scanner.FileInfo: metadata record for one scanned file.  Paths are kept
as component lists (`os.path.join` appends one component). -/
structure FileInfo where
  path : List String
  name : String
  size : Nat
  lastAccessed : Int
  lastModified : Int
  extension : String
  deriving DecidableEq, Repr

/-- A classified file as consumed by `find_duplicates`: the `file_info`
record plus the content the filesystem yields at its path (`none` models an
I/O error on open/read). -/
structure Entry where
  info : FileInfo
  content : Option (List Nat)
  deriving DecidableEq, Repr

/-- duplicate_finder.calculate_file_hash: digest of the first 4096 bytes
(`part = true`) or of the whole file, `none` on I/O error.  The digest is
modelled as the hashed bytes themselves (ideal hash). -/
def calculateFileHash (e : Entry) (part : Bool) : Option (List Nat) :=
  match e.content with
  | none => none
  | some c => some (if part then c.take 4096 else c)

/-- Key function of stage 1: `if size > 0: size_groups[size].append(...)`. -/
def sizeKey (e : Entry) : Option Nat :=
  if 0 < e.info.size then some e.info.size else none

/-- Key function of stage 2 (partial hash). -/
def phKey (e : Entry) : Option (List Nat) :=
  calculateFileHash e true

/-- Key function of stage 3 (full hash). -/
def fhKey (e : Entry) : Option (List Nat) :=
  calculateFileHash e false

/-- `defaultdict(list)` append: add `v` to the bucket of key `k`, appending a
new key at the end when absent (Python dict insertion order). -/
def addToGroup {κ : Type} [DecidableEq κ] :
    List (κ × List Entry) → κ → Entry → List (κ × List Entry)
  | [], k, v => [(k, [v])]
  | (k0, vs) :: rest, k, v =>
    if k = k0 then (k0, vs ++ [v]) :: rest
    else (k0, vs) :: addToGroup rest k v

/-- One grouping step: add `e` to the bucket of its key, or drop it when the
key function yields `none`. -/
def groupStep {κ : Type} [DecidableEq κ] (f : Entry → Option κ)
    (acc : List (κ × List Entry)) (e : Entry) : List (κ × List Entry) :=
  match f e with
  | some k => addToGroup acc k e
  | none => acc

/-- Fold `groupStep` over a list (a `defaultdict(list)` grouping loop). -/
def groupBy {κ : Type} [DecidableEq κ] (f : Entry → Option κ) :
    List Entry → List (κ × List Entry) → List (κ × List Entry)
  | [], acc => acc
  | e :: rest, acc => groupBy f rest (groupStep f acc e)

/-- `d[k] = v` on a Python dict: replace the value at an existing key (key
position kept), else append the new key. -/
def dictInsert {κ α : Type} [DecidableEq κ] :
    List (κ × α) → κ → α → List (κ × α)
  | [], k, v => [(k, v)]
  | (k0, v0) :: rest, k, v =>
    if k = k0 then (k, v) :: rest
    else (k0, v0) :: dictInsert rest k v

/-- A progress-callback invocation `(stage, current, total)`. -/
abbrev Event := String × Nat × Nat

/-- Threaded state of one `find_duplicates` run: number of `stop_flag` polls
made so far, the recorded progress events, and the `duplicates` dict. -/
structure FDState where
  polls : Nat
  events : List Event
  duplicates : List (List Nat × List Entry)
  deriving Repr

/-- One `stop_flag()` poll. -/
def pollFD (stop : Nat → Bool) (s : FDState) : Bool × FDState :=
  (stop s.polls, { s with polls := s.polls + 1 })

/-- One `progress_callback(...)` invocation. -/
def emitFD (s : FDState) (ev : Event) : FDState :=
  { s with events := s.events ++ [ev] }

/-- Stage 1 loop of `find_duplicates` (lines 68-76): per file, poll the stop
flag (early return of the current `duplicates` on true), group by size
skipping empty files, report progress every 100 files. -/
def stage1 (stop : Nat → Bool) (n : Nat) :
    List Entry → Nat → List (Nat × List Entry) → FDState →
    Option (List (Nat × List Entry)) × FDState
  | [], _, sg, s => (some sg, s)
  | e :: rest, i, sg, s =>
    match pollFD stop s with
    | (true, s) => (none, s)
    | (false, s) =>
      let sg := groupStep sizeKey sg e
      let s := if i % 100 = 0 then emitFD s ("Grouping by size", i, n) else s
      stage1 stop n rest (i + 1) sg s

/-- Stage 2 inner loop (lines 101-113): per file of one size group, poll the
stop flag, bucket by partial hash (dropping unreadable files), increment
`checked` and report progress every 50 files. -/
def stage2Files (stop : Nat → Bool) (total : Nat) :
    List Entry → List (List Nat × List Entry) → Nat → FDState →
    Option (List (List Nat × List Entry) × Nat) × FDState
  | [], phg, checked, s => (some (phg, checked), s)
  | e :: rest, phg, checked, s =>
    match pollFD stop s with
    | (true, s) => (none, s)
    | (false, s) =>
      let phg := groupStep phKey phg e
      let checked := checked + 1
      let s := if checked % 50 = 0 then
        emitFD s ("Calculating partial hashes", checked, total) else s
      stage2Files stop total rest phg checked s

/-- Lines 133-135: store every full-hash bucket with at least 2 members into
the `duplicates` dict. -/
def addConfirmed :
    List (List Nat × List Entry) → List (List Nat × List Entry) →
    List (List Nat × List Entry)
  | [], d => d
  | (h, g) :: rest, d =>
    addConfirmed rest (if 2 ≤ g.length then dictInsert d h g else d)

/-- Stage 3 loop (lines 116-135): for each partial-hash bucket with ≥2
members (smaller buckets are skipped before the poll), poll the stop flag,
re-bucket the files by full hash (the inner loop at lines 125-130 has no
poll and no progress callback) and store the confirmed groups. -/
def stage3 (stop : Nat → Bool) :
    List (List Nat × List Entry) → FDState → Bool × FDState
  | [], s => (false, s)
  | (_, mf) :: rest, s =>
    if mf.length < 2 then stage3 stop rest s
    else
      match pollFD stop s with
      | (true, s) => (true, s)
      | (false, s) =>
        let fhg := groupBy fhKey mf []
        stage3 stop rest { s with duplicates := addConfirmed fhg s.duplicates }

/-- Stage 2/3 outer loop over the size groups (lines 95-135), threading the
`checked` counter across groups. -/
def stage2 (stop : Nat → Bool) (total : Nat) :
    List (List Entry) → Nat → FDState → Bool × FDState
  | [], _, s => (false, s)
  | g :: rest, checked, s =>
    match pollFD stop s with
    | (true, s) => (true, s)
    | (false, s) =>
      match stage2Files stop total g [] checked s with
      | (none, s) => (true, s)
      | (some (phg, checked), s) =>
        match stage3 stop phg s with
        | (true, s) => (true, s)
        | (false, s) => stage2 stop total rest checked s

/-- The size grouping produced by a completed stage 1. -/
def sizeGroups (files : List Entry) : List (Nat × List Entry) :=
  groupBy sizeKey files []

/-- Lines 79-82: size groups with at least two members, in dict order. -/
def potentialDuplicates (files : List Entry) : List (List Entry) :=
  ((sizeGroups files).map Prod.snd).filter (fun g => decide (2 ≤ g.length))

/-- Line 88: `total_to_check`. -/
def totalToCheck (files : List Entry) : Nat :=
  ((potentialDuplicates files).map List.length).sum

/-- Result of `find_duplicates`: the hash→group dict and the progress
events. -/
structure FDResult where
  duplicates : List (List Nat × List Entry)
  events : List Event
  deriving Repr

/-- duplicate_finder.find_duplicates (lines 42-140). -/
def findDuplicates (files : List Entry) (stop : Nat → Bool) : FDResult :=
  if files.isEmpty then ⟨[], []⟩
  else
    let s0 : FDState := ⟨0, [("Grouping by size", 0, files.length)], []⟩
    match stage1 stop files.length files 0 [] s0 with
    | (none, s) => ⟨s.duplicates, s.events⟩
    | (some sg, s) =>
      let potential := (sg.map Prod.snd).filter (fun g => decide (2 ≤ g.length))
      if potential.isEmpty then ⟨s.duplicates, s.events⟩
      else
        let total := (potential.map List.length).sum
        let s := emitFD s ("Calculating partial hashes", 0, total)
        match stage2 stop total potential 0 s with
        | (true, s) => ⟨s.duplicates, s.events⟩
        | (false, s) =>
          let s := emitFD s ("Complete", total, total)
          ⟨s.duplicates, s.events⟩

/-- The constantly-false stop flag (no `stop_flag` supplied / never
cancelled). -/
def noStop : Nat → Bool := fun _ => false

/-- utils.days_since: whole days elapsed between a timestamp and now;
`timedelta.days` is floor division of the elapsed seconds by 86400. -/
def daysSince (now ts : Int) : Int :=
  (now - ts).fdiv 86400

/-- analyzer.calculate_staleness_score: `size_in_mb * days_since_access`,
modelled exactly over `ℚ`. -/
def stalenessScore (now : Int) (fi : FileInfo) : ℚ :=
  ((fi.size : ℚ) / (1024 * 1024)) * ((daysSince now fi.lastAccessed : ℤ) : ℚ)

/-- scanner.SKIP_FOLDERS. -/
def SKIP_FOLDERS : List String :=
  ["$Recycle.Bin", "System Volume Information", "Windows", "ProgramData",
   "Program Files", "Program Files (x86)", "Recovery", "PerfLogs",
   "$WinREAgent", "Config.Msi", "Documents and Settings", "MSOCache",
   "Intel", "AMD", "NVIDIA", "AppData"]

/-- Line 67: a directory is pruned from the walk when its name is in
SKIP_FOLDERS or starts with the hidden-file marker. -/
def skipDir (name : String) : Bool :=
  SKIP_FOLDERS.contains name || name.startsWith "."

/-- A filesystem subtree: a file with its `os.stat` outcome
(`(size, atime, mtime)`, `none` models a stat error) or a directory with
children. -/
inductive FSNode where
  | file (name : String) (stat : Option (Nat × Int × Int))
  | dir (name : String) (children : List FSNode)
  deriving Repr

/-- Split a character list at every dot (the groups, dots dropped), as
`str.split(".")` does. -/
def splitDots : List Char → List (List Char)
  | [] => [[]]
  | c :: rest =>
    let r := splitDots rest
    if c = '.' then [] :: r
    else (c :: r.headD []) :: r.tail

/-- Models `Path(filename).suffix.lower()` for the common cases: the
last dot-suffix including the dot, lower-cased; empty when there is no dot
or the only dot is the leading one of a hidden file. -/
def extOf (name : String) : String :=
  let parts := splitDots name.toList
  if parts.length ≤ 1 then ""
  else if (parts.getLastD []).isEmpty then ""
  else if parts.length == 2 && (parts.headD []).isEmpty then ""
  else String.mk ('.' :: (parts.getLastD []).map Char.toLower)

/-- The filenames (with stat outcomes) among a directory's children, in
order: the `filenames` component of one `os.walk` triple. -/
def filesOf (cs : List FSNode) : List (String × Option (Nat × Int × Int)) :=
  cs.filterMap fun n =>
    match n with
    | .file fname st => some (fname, st)
    | .dir _ _ => none

/-- The `os.walk(root, topdown=True)` triples strictly below a directory at
path `p` with children `cs`, with the line-67 pruning applied: each kept
subdirectory contributes its own triple followed by its subtree's triples,
then the later siblings.  The walk itself is lazy in the source; the early
`break` is applied by the consumer `scanLoop`. -/
def walkChildren (p : List String) (cs : List FSNode) :
    List (List String × List (String × Option (Nat × Int × Int))) :=
  match cs with
  | [] => []
  | .file _ _ :: rest => walkChildren p rest
  | .dir name sub :: rest =>
    if skipDir name then walkChildren p rest
    else
      ((p ++ [name], filesOf sub) :: walkChildren (p ++ [name]) sub)
        ++ walkChildren p rest
termination_by sizeOf cs
decreasing_by
  all_goals simp_wf
  all_goals omega

/-- Threaded state of one `scan_directory` run: poll count, file counter,
collected FileInfo records, and the recorded progress events (`none` path
stands for the final "Scan complete" sentinel). -/
structure ScanState where
  polls : Nat
  count : Nat
  files : List FileInfo
  events : List (Option (List String) × Nat)
  deriving Repr

/-- One `stop_flag()` poll during a scan. -/
def pollScan (stop : Nat → Bool) (s : ScanState) : Bool × ScanState :=
  (stop s.polls, { s with polls := s.polls + 1 })

/-- Inner filename loop of scan_directory (lines 69-94): per file, poll the
stop flag (`break` leaves only this loop; the walk continues), skip files
whose stat fails, append a FileInfo and report progress every 100 files. -/
def fileLoop (stop : Nat → Bool) (dirpath : List String) :
    List (String × Option (Nat × Int × Int)) → ScanState → ScanState
  | [], s => s
  | (fname, st) :: rest, s =>
    match pollScan stop s with
    | (true, s) => s
    | (false, s) =>
      match st with
      | none => fileLoop stop dirpath rest s
      | some (sz, ta, tm) =>
        let fi : FileInfo :=
          ⟨dirpath ++ [fname], fname, sz, ta, tm, extOf fname⟩
        let s := { s with files := s.files ++ [fi], count := s.count + 1 }
        let s := if s.count % 100 = 0 then
          { s with events := s.events ++ [(some dirpath, s.count)] } else s
        fileLoop stop dirpath rest s

/-- Outer `os.walk` loop of scan_directory (lines 61-94): per directory
triple, poll the stop flag (`break` ends the whole walk), then run the
filename loop. -/
def scanLoop (stop : Nat → Bool) :
    List (List String × List (String × Option (Nat × Int × Int))) →
    ScanState → ScanState
  | [], s => s
  | (dpath, fns) :: rest, s =>
    match pollScan stop s with
    | (true, s) => s
    | (false, s) => scanLoop stop rest (fileLoop stop dpath fns s)

/-- scanner.scan_directory (lines 41-104) on a root at path `rootP` with
children `tree`.  The root directory itself is always walked (the pruning
applies only to descendants); the final progress callback is always
invoked.  Directory-level I/O errors (the outer `except` and unreadable
directories inside the walk) are not modelled: the tree contains what the
walk can list. -/
def scanDirectory (rootP : List String) (tree : List FSNode)
    (stop : Nat → Bool) : ScanState :=
  let s0 : ScanState := ⟨0, 0, [], []⟩
  let triples := (rootP, filesOf tree) :: walkChildren rootP tree
  let s := scanLoop stop triples s0
  { s with events := s.events ++ [(none, s.count)] }

/-- All members of a group share the content `k` and one positive size. -/
def SizedOK (k : List Nat) (g : List Entry) : Prop :=
  ∃ sz, 0 < sz ∧ ∀ e ∈ g, e.content = some k ∧ e.info.size = sz

/-- The DuplicateGroup invariant for one entry of the result dict. -/
def GroupOK (k : List Nat) (g : List Entry) : Prop :=
  2 ≤ g.length ∧ SizedOK k g

/-- Every group of the dict satisfies the invariant and keys are unique. -/
def DictOK (d : List (List Nat × List Entry)) : Prop :=
  (∀ kg ∈ d, GroupOK kg.1 kg.2) ∧ (d.map Prod.fst).Nodup

/-- The cumulative effect of stage 3 on the `duplicates` dict for one size
group's partial-hash buckets (specification of `stage3` when no stop
occurs). -/
def stage3Pure :
    List (List Nat × List Entry) → List (List Nat × List Entry) →
    List (List Nat × List Entry)
  | [], d => d
  | (_, mf) :: rest, d =>
    if mf.length < 2 then stage3Pure rest d
    else stage3Pure rest (addConfirmed (groupBy fhKey mf []) d)

/-- The `duplicates` dict built by stages 2-3 over all size groups
(specification of `stage2` when no stop occurs). -/
def duplicatesPure :
    List (List Entry) → List (List Nat × List Entry) →
    List (List Nat × List Entry)
  | [], d => d
  | g :: rest, d => duplicatesPure rest (stage3Pure (groupBy phKey g []) d)

/-- The `current` counters of the progress callbacks carrying a given stage
label, in order. -/
def stageCurrents (st : String) (evs : List Event) : List Nat :=
  (evs.filter fun ev => ev.1 == st).map fun ev => ev.2.1

/-- Sample entry: 3-byte file "a.txt". -/
def entA : Entry := ⟨⟨["C:"], "a.txt", 3, 0, 0, ".txt"⟩, some [7, 7, 7]⟩

/-- Sample entry: a distinct 3-byte file with identical content. -/
def entB : Entry := ⟨⟨["C:"], "b.txt", 3, 0, 0, ".txt"⟩, some [7, 7, 7]⟩

/-- Sample entry: a 1-byte file with different content. -/
def entC : Entry := ⟨⟨["C:"], "c.txt", 1, 0, 0, ".txt"⟩, some [9]⟩

/-- Sample entry: an unreadable 1-byte file. -/
def entN : Entry := ⟨⟨[], "f", 1, 0, 0, ""⟩, none⟩

/-- 101 size-1 entries: enough files to drive the stage-1 `current` counter
to 100 before stage 2 resets it to 0. -/
def files101 : List Entry := List.replicate 101 entN

/-- A 4097-byte file: 4096 zeros then a 1. -/
def entP1 : Entry :=
  ⟨⟨["C:"], "p1.bin", 4097, 0, 0, ".bin"⟩, some (List.replicate 4096 0 ++ [1])⟩

/-- A 4097-byte file with the same first 4096 bytes but different content. -/
def entP2 : Entry :=
  ⟨⟨["C:"], "p2.bin", 4097, 0, 0, ".bin"⟩, some (List.replicate 4096 0 ++ [2])⟩

/-- A 1 MiB file whose last access stamp is one day in the future. -/
def futureFile : FileInfo := ⟨[], "future.bin", 1048576, 86400, 0, ".bin"⟩

/-- A one-file tree used to exercise the scanner. -/
def sampleTree1 : List FSNode := [FSNode.file "a.txt" (some (3, 0, 0))]

/-- The record the scanner produces for `sampleTree1` under root `[]`. -/
def sampleScanned : FileInfo := ⟨["a.txt"], "a.txt", 3, 0, 0, ".txt"⟩

/-- Association-list lookup (first match), used only in proofs. -/
def alookup {κ α : Type} [DecidableEq κ] : List (κ × α) → κ → Option α
  | [], _ => none
  | (k0, v) :: rest, k => if k = k0 then some v else alookup rest k

theorem alookup_some_mem {κ α : Type} [DecidableEq κ]
    {d : List (κ × α)} {k : κ} {v : α} (h : alookup d k = some v) :
    (k, v) ∈ d := by
  induction d with
  | nil => simp [alookup] at h
  | cons hd tl ih =>
    obtain ⟨k0, v0⟩ := hd
    by_cases hk : k = k0
    · subst hk
      simp [alookup] at h
      simp [h]
    · simp [alookup, hk] at h
      exact List.mem_cons_of_mem _ (ih h)

theorem alookup_isSome_iff {κ α : Type} [DecidableEq κ]
    (d : List (κ × α)) (k : κ) :
    (alookup d k).isSome = true ↔ k ∈ d.map Prod.fst := by
  induction d with
  | nil => simp [alookup]
  | cons hd tl ih =>
    obtain ⟨k0, v0⟩ := hd
    by_cases hk : k = k0
    · subst hk; simp [alookup]
    · simp [alookup, hk, ih]

theorem mem_alookup_of_nodup {κ α : Type} [DecidableEq κ]
    {d : List (κ × α)} (hnd : (d.map Prod.fst).Nodup)
    {k : κ} {v : α} (h : (k, v) ∈ d) :
    alookup d k = some v := by
  induction d with
  | nil => simp at h
  | cons hd tl ih =>
    obtain ⟨k0, v0⟩ := hd
    simp only [List.map_cons, List.nodup_cons] at hnd
    rcases List.mem_cons.mp h with h0 | h0
    · obtain ⟨h1, h2⟩ := Prod.mk.injEq .. ▸ h0
      subst h1; subst h2
      simp [alookup]
    · have hk : k ≠ k0 := by
        rintro rfl
        exact hnd.1 (List.mem_map.mpr ⟨(k, v), h0, rfl⟩)
      simp only [alookup, if_neg hk]
      exact ih hnd.2 h0

theorem alookup_eq_of_nodup_mem {κ α : Type} [DecidableEq κ]
    {d : List (κ × α)} (hnd : (d.map Prod.fst).Nodup)
    {k : κ} {v1 v2 : α} (h1 : (k, v1) ∈ d) (h2 : (k, v2) ∈ d) :
    v1 = v2 := by
  have e1 := mem_alookup_of_nodup hnd h1
  have e2 := mem_alookup_of_nodup hnd h2
  rw [e1] at e2
  exact Option.some.inj e2

theorem alookup_addToGroup {κ : Type} [DecidableEq κ]
    (acc : List (κ × List Entry)) (k0 : κ) (v : Entry) (k : κ) :
    alookup (addToGroup acc k0 v) k =
      if k = k0 then some (((alookup acc k0).getD []) ++ [v])
      else alookup acc k := by
  induction acc with
  | nil =>
    by_cases hk : k = k0 <;> simp [addToGroup, alookup, hk]
  | cons hd tl ih =>
    obtain ⟨k1, vs⟩ := hd
    by_cases h01 : k0 = k1
    · subst h01
      by_cases hk : k = k0 <;> simp [addToGroup, alookup, hk]
    · by_cases hk : k = k1
      · subst hk
        have : k ≠ k0 := fun h => h01 h.symm
        simp [addToGroup, alookup, h01, this]
      · simp [addToGroup, alookup, h01, hk, ih]

theorem keys_addToGroup {κ : Type} [DecidableEq κ]
    (acc : List (κ × List Entry)) (k0 : κ) (v : Entry) :
    (addToGroup acc k0 v).map Prod.fst =
      if k0 ∈ acc.map Prod.fst then acc.map Prod.fst
      else acc.map Prod.fst ++ [k0] := by
  induction acc with
  | nil => simp [addToGroup]
  | cons hd tl ih =>
    obtain ⟨k1, vs⟩ := hd
    by_cases h01 : k0 = k1
    · subst h01; simp [addToGroup]
    · have h10 : k1 ≠ k0 := fun h => h01 h.symm
      by_cases hmem : k0 ∈ tl.map Prod.fst <;>
        simp [addToGroup, h01, h10, hmem, ih]

theorem keys_nodup_addToGroup {κ : Type} [DecidableEq κ]
    {acc : List (κ × List Entry)} (hnd : (acc.map Prod.fst).Nodup)
    (k0 : κ) (v : Entry) :
    ((addToGroup acc k0 v).map Prod.fst).Nodup := by
  rw [keys_addToGroup]
  by_cases hmem : k0 ∈ acc.map Prod.fst
  · simpa [hmem] using hnd
  · simpa [hmem, List.nodup_append] using hnd

theorem keys_nodup_groupBy {κ : Type} [DecidableEq κ] (f : Entry → Option κ)
    (l : List Entry) (acc : List (κ × List Entry))
    (hnd : (acc.map Prod.fst).Nodup) :
    ((groupBy f l acc).map Prod.fst).Nodup := by
  induction l generalizing acc with
  | nil => simpa [groupBy] using hnd
  | cons e rest ih =>
    simp only [groupBy]
    apply ih
    unfold groupStep
    cases hf : f e with
    | none => exact hnd
    | some k0 => exact keys_nodup_addToGroup hnd k0 e

theorem alookup_groupBy {κ : Type} [DecidableEq κ] (f : Entry → Option κ)
    (l : List Entry) (acc : List (κ × List Entry)) (k : κ) :
    alookup (groupBy f l acc) k =
      if ((alookup acc k).isSome ||
          !(l.filter fun e => decide (f e = some k)).isEmpty)
      then some ((alookup acc k).getD []
        ++ l.filter fun e => decide (f e = some k))
      else none := by
  induction l generalizing acc with
  | nil =>
    cases h : alookup acc k <;> simp [groupBy, h]
  | cons e rest ih =>
    simp only [groupBy]
    rw [ih]
    unfold groupStep
    cases hf : f e with
    | none =>
      have hpred : decide (f e = some k) = false := by simp [hf]
      simp [List.filter_cons, hpred]
    | some k0 =>
      by_cases hk : k = k0
      · subst hk
        have hpred : decide (f e = some k) = true := by simp [hf]
        rw [alookup_addToGroup]
        cases h : alookup acc k <;>
          simp [List.filter_cons, hpred, h]
      · have hpred : decide (f e = some k) = false := by
          simp [hf]
          rintro rfl
          exact hk rfl
        rw [alookup_addToGroup]
        simp [List.filter_cons, hpred, hk]

theorem alookup_groupBy_nil {κ : Type} [DecidableEq κ] (f : Entry → Option κ)
    (l : List Entry) (k : κ) :
    alookup (groupBy f l []) k =
      if (l.filter fun e => decide (f e = some k)).isEmpty
      then none
      else some (l.filter fun e => decide (f e = some k)) := by
  rw [alookup_groupBy]
  cases h : (l.filter fun e => decide (f e = some k)).isEmpty <;>
    simp [alookup, h]

theorem groupBy_mem_iff {κ : Type} [DecidableEq κ] (f : Entry → Option κ)
    (l : List Entry) (k : κ) (g : List Entry) :
    (k, g) ∈ groupBy f l [] ↔
      g = (l.filter fun e => decide (f e = some k)) ∧ g ≠ [] := by
  constructor
  · intro hmem
    have hnd := keys_nodup_groupBy f l ([] : List (κ × List Entry))
      (by simp)
    have hl := mem_alookup_of_nodup hnd hmem
    rw [alookup_groupBy_nil] at hl
    by_cases hempty : (l.filter fun e => decide (f e = some k)).isEmpty
    · rw [if_pos hempty] at hl
      exact absurd hl (by simp)
    · rw [if_neg hempty] at hl
      have hg := (Option.some.inj hl).symm
      refine ⟨hg, ?_⟩
      intro hnil
      rw [hnil] at hg
      exact hempty (by rw [← hg]; rfl)
  · rintro ⟨hg, hne⟩
    have hempty : ¬ (l.filter fun e => decide (f e = some k)).isEmpty = true := by
      rw [← hg]
      simpa [List.isEmpty_iff] using hne
    have hl : alookup (groupBy f l []) k = some g := by
      rw [alookup_groupBy_nil, if_neg hempty, hg]
    exact alookup_some_mem hl

/-- Members of a `groupBy` bucket come from the input and carry the
bucket's key. -/
theorem groupBy_mem_of_mem {κ : Type} [DecidableEq κ] {f : Entry → Option κ}
    {l : List Entry} {k : κ} {g : List Entry}
    (hmem : (k, g) ∈ groupBy f l []) {e : Entry} (he : e ∈ g) :
    e ∈ l ∧ f e = some k := by
  obtain ⟨hg, -⟩ := (groupBy_mem_iff f l k g).mp hmem
  rw [hg] at he
  have h1 := List.mem_of_mem_filter he
  have h2 := List.of_mem_filter he
  exact ⟨h1, by simpa using h2⟩

/-- Grouping a non-empty list whose elements all share the key `k` yields
the single bucket `(k, l)`. -/
theorem groupBy_homogeneous {κ : Type} [DecidableEq κ] (f : Entry → Option κ)
    (l : List Entry) (k : κ) (g0 : List Entry)
    (tail : List (κ × List Entry))
    (h : ∀ e ∈ l, f e = some k) :
    groupBy f l ((k, g0) :: tail) = (k, g0 ++ l) :: tail := by
  induction l generalizing g0 with
  | nil => simp [groupBy]
  | cons e rest ih =>
    have he : f e = some k := h e (by simp)
    have hstep : groupStep f ((k, g0) :: tail) e = (k, g0 ++ [e]) :: tail := by
      simp [groupStep, he, addToGroup]
    simp only [groupBy, hstep]
    rw [ih (g0 ++ [e]) (fun x hx => h x (by simp [hx]))]
    simp

theorem groupBy_homogeneous_nil {κ : Type} [DecidableEq κ]
    (f : Entry → Option κ) (l : List Entry) (k : κ)
    (hne : l ≠ []) (h : ∀ e ∈ l, f e = some k) :
    groupBy f l [] = [(k, l)] := by
  cases l with
  | nil => exact absurd rfl hne
  | cons e rest =>
    have he : f e = some k := h e (by simp)
    have hstep : groupStep f [] e = [(k, [e])] := by
      simp [groupStep, he, addToGroup]
    simp only [groupBy, hstep]
    rw [groupBy_homogeneous f rest k [e] []
      (fun x hx => h x (by simp [hx]))]
    simp

theorem mem_dictInsert {κ α : Type} [DecidableEq κ]
    {d : List (κ × α)} {k : κ} {v : α} {x : κ × α}
    (h : x ∈ dictInsert d k v) : x = (k, v) ∨ x ∈ d := by
  induction d with
  | nil => simpa [dictInsert] using h
  | cons hd tl ih =>
    obtain ⟨k0, v0⟩ := hd
    by_cases hk : k = k0
    · simp only [dictInsert, if_pos hk] at h
      rcases List.mem_cons.mp h with h1 | h1
      · exact Or.inl h1
      · exact Or.inr (List.mem_cons_of_mem _ h1)
    · simp only [dictInsert, if_neg hk] at h
      rcases List.mem_cons.mp h with h1 | h1
      · exact Or.inr (by simp [h1])
      · rcases ih h1 with h2 | h2
        · exact Or.inl h2
        · exact Or.inr (List.mem_cons_of_mem _ h2)

theorem keys_dictInsert {κ α : Type} [DecidableEq κ]
    (d : List (κ × α)) (k : κ) (v : α) :
    (dictInsert d k v).map Prod.fst =
      if k ∈ d.map Prod.fst then d.map Prod.fst
      else d.map Prod.fst ++ [k] := by
  induction d with
  | nil => simp [dictInsert]
  | cons hd tl ih =>
    obtain ⟨k0, v0⟩ := hd
    by_cases hk : k = k0
    · subst hk; simp [dictInsert]
    · by_cases hmem : k ∈ tl.map Prod.fst <;>
        simp [dictInsert, hk, Ne.symm hk, hmem, ih]

theorem keys_nodup_dictInsert {κ α : Type} [DecidableEq κ]
    {d : List (κ × α)} (hnd : (d.map Prod.fst).Nodup) (k : κ) (v : α) :
    ((dictInsert d k v).map Prod.fst).Nodup := by
  rw [keys_dictInsert]
  by_cases hmem : k ∈ d.map Prod.fst
  · simpa [hmem] using hnd
  · simpa [hmem, List.nodup_append] using hnd

theorem dictOK_dictInsert {d : List (List Nat × List Entry)}
    (hd : DictOK d) {k : List Nat} {g : List Entry} (hg : GroupOK k g) :
    DictOK (dictInsert d k g) := by
  refine ⟨fun kg hkg => ?_, keys_nodup_dictInsert hd.2 k g⟩
  rcases mem_dictInsert hkg with h1 | h1
  · rw [h1]; exact hg
  · exact hd.1 kg h1

theorem dictOK_addConfirmed (fhg : List (List Nat × List Entry)) :
    ∀ d : List (List Nat × List Entry), DictOK d →
    (∀ kb ∈ fhg, SizedOK kb.1 kb.2) →
    DictOK (addConfirmed fhg d) := by
  induction fhg with
  | nil => intro d hd _; exact hd
  | cons hd0 rest ih =>
    intro d hd hb
    obtain ⟨h, g⟩ := hd0
    simp only [addConfirmed]
    apply ih
    · by_cases hlen : 2 ≤ g.length
      · rw [if_pos hlen]
        exact dictOK_dictInsert hd ⟨hlen, hb (h, g) (by simp)⟩
      · rw [if_neg hlen]; exact hd
    · intro kb hkb
      exact hb kb (List.mem_cons_of_mem _ hkb)

/-- `fhKey` is ideal: it equals the full content. -/
theorem fhKey_eq_some {e : Entry} {k : List Nat} :
    fhKey e = some k ↔ e.content = some k := by
  unfold fhKey calculateFileHash
  cases e.content <;> simp

/-- `sizeKey e = some k` holds exactly for positive size `k`. -/
theorem sizeKey_eq_some {e : Entry} {k : Nat} :
    sizeKey e = some k ↔ 0 < e.info.size ∧ e.info.size = k := by
  unfold sizeKey
  by_cases h : 0 < e.info.size <;> simp [h]

/-- A full-hash bucket taken from a same-size family of files satisfies the
member invariant. -/
theorem sizedOK_fullHashBucket {mf : List Entry} {sz : Nat} (hsz : 0 < sz)
    (hmf : ∀ e ∈ mf, e.info.size = sz)
    {k : List Nat} {b : List Entry} (hb : (k, b) ∈ groupBy fhKey mf []) :
    SizedOK k b := by
  refine ⟨sz, hsz, fun e he => ?_⟩
  obtain ⟨hmem, hkey⟩ := groupBy_mem_of_mem hb he
  exact ⟨fhKey_eq_some.mp hkey, hmf e hmem⟩

theorem stage3_dictOK (stop : Nat → Bool)
    (phg : List (List Nat × List Entry)) :
    ∀ s : FDState, DictOK s.duplicates →
    (∀ kb ∈ phg, ∃ sz, 0 < sz ∧ ∀ e ∈ kb.2, e.info.size = sz) →
    DictOK (((stage3 stop phg s).2).duplicates) := by
  induction phg with
  | nil => intro s hs _; exact hs
  | cons hd rest ih =>
    intro s hs hb
    obtain ⟨h, mf⟩ := hd
    simp only [stage3]
    by_cases hlen : mf.length < 2
    · rw [if_pos hlen]
      exact ih s hs fun kb hkb => hb kb (List.mem_cons_of_mem _ hkb)
    · rw [if_neg hlen]
      simp only [pollFD]
      cases hstop : stop s.polls
      · simp only
        apply ih
        · obtain ⟨sz, hsz, hmf⟩ := hb (h, mf) (by simp)
          exact dictOK_addConfirmed _ _ hs
            fun kb hkb => sizedOK_fullHashBucket hsz hmf hkb
        · exact fun kb hkb => hb kb (List.mem_cons_of_mem _ hkb)
      · simpa using hs

theorem stage2Files_duplicates (stop : Nat → Bool) (total : Nat)
    (l : List Entry) :
    ∀ (phg) (checked : Nat) (s : FDState),
    ((stage2Files stop total l phg checked s).2).duplicates =
      s.duplicates := by
  induction l with
  | nil => intro phg checked s; rfl
  | cons e rest ih =>
    intro phg checked s
    simp only [stage2Files, pollFD]
    cases hstop : stop s.polls
    · simp only
      rw [ih]
      split <;> rfl
    · rfl

theorem stage2Files_some (stop : Nat → Bool) (total : Nat) (l : List Entry) :
    ∀ (phg) (checked : Nat) (s : FDState) (phg2) (checked2 : Nat),
    (stage2Files stop total l phg checked s).1 = some (phg2, checked2) →
    phg2 = groupBy phKey l phg ∧ checked2 = checked + l.length := by
  induction l with
  | nil =>
    intro phg checked s phg2 checked2 h
    simp only [stage2Files, Option.some.injEq, Prod.mk.injEq] at h
    obtain ⟨h1, h2⟩ := h
    refine ⟨h1.symm, ?_⟩
    simpa using h2.symm
  | cons e rest ih =>
    intro phg checked s phg2 checked2 h
    simp only [stage2Files, pollFD] at h
    cases hstop : stop s.polls
    · rw [hstop] at h
      simp only at h
      obtain ⟨ha, hb⟩ :=
        ih (groupStep phKey phg e) (checked + 1) _ phg2 checked2 h
      refine ⟨ha, ?_⟩
      simp only [List.length_cons]
      omega
    · rw [hstop] at h
      simp at h

theorem stage1_duplicates (stop : Nat → Bool) (n : Nat) (l : List Entry) :
    ∀ (i : Nat) (sg) (s : FDState),
    ((stage1 stop n l i sg s).2).duplicates = s.duplicates := by
  induction l with
  | nil => intro i sg s; rfl
  | cons e rest ih =>
    intro i sg s
    simp only [stage1, pollFD]
    cases hstop : stop s.polls
    · simp only
      rw [ih]
      split <;> rfl
    · rfl

theorem stage1_some (stop : Nat → Bool) (n : Nat) (l : List Entry) :
    ∀ (i : Nat) (sg) (s : FDState) (sg2),
    (stage1 stop n l i sg s).1 = some sg2 →
    sg2 = groupBy sizeKey l sg := by
  induction l with
  | nil =>
    intro i sg s sg2 h
    simpa [stage1, groupBy] using (Option.some.inj h).symm
  | cons e rest ih =>
    intro i sg s sg2 h
    simp only [stage1, pollFD] at h
    cases hstop : stop s.polls
    · rw [hstop] at h
      simp only at h
      exact ih (i + 1) (groupStep sizeKey sg e) _ sg2 h
    · rw [hstop] at h
      simp at h

theorem dictOK_nil : DictOK ([] : List (List Nat × List Entry)) :=
  ⟨fun kg hkg => absurd hkg (List.not_mem_nil kg), List.nodup_nil⟩

theorem stage2_dictOK (stop : Nat → Bool) (total : Nat)
    (gs : List (List Entry)) :
    ∀ (checked : Nat) (s : FDState), DictOK s.duplicates →
    (∀ g ∈ gs, ∃ sz, 0 < sz ∧ ∀ e ∈ g, e.info.size = sz) →
    DictOK (((stage2 stop total gs checked s).2).duplicates) := by
  induction gs with
  | nil => intro checked s hs _; exact hs
  | cons g rest ih =>
    intro checked s hs hgs
    simp only [stage2, pollFD]
    cases hstop : stop s.polls
    · simp only
      rcases h2 : stage2Files stop total g [] checked
          { s with polls := s.polls + 1 } with ⟨o, s2⟩
      have hdup2 : s2.duplicates = s.duplicates := by
        have := stage2Files_duplicates stop total g [] checked
          { s with polls := s.polls + 1 }
        rw [h2] at this
        exact this
      try rw [h2]
      cases o with
      | none => simpa [hdup2] using hs
      | some pc =>
        obtain ⟨phg, checked2⟩ := pc
        have hsome : (stage2Files stop total g [] checked
            { s with polls := s.polls + 1 }).1 = some (phg, checked2) := by
          rw [h2]
        obtain ⟨hphg, -⟩ := stage2Files_some stop total g [] checked _
          phg checked2 hsome
        obtain ⟨sz, hsz, hg⟩ := hgs g (by simp)
        have hbuckets : ∀ kb ∈ phg, ∃ sz2, 0 < sz2 ∧
            ∀ e ∈ kb.2, e.info.size = sz2 := by
          intro kb hkb
          refine ⟨sz, hsz, fun e he => ?_⟩
          rw [hphg] at hkb
          obtain ⟨hmem, -⟩ :=
            groupBy_mem_of_mem (f := phKey) (by exact hkb) he
          exact hg e hmem
        split
        next s3 heq => exact absurd heq (by simp)
        next phg2 checked3 s3 heq =>
          rw [Prod.mk.injEq, Option.some.injEq, Prod.mk.injEq] at heq
          obtain ⟨⟨hphg2, hck⟩, hs23⟩ := heq
          subst hphg2
          subst hck
          subst hs23
          have hOK3 := stage3_dictOK stop phg s2
            (by rw [hdup2]; exact hs) hbuckets
          split
          next s4 heq2 =>
            rw [heq2] at hOK3
            simpa using hOK3
          next s4 heq2 =>
            rw [heq2] at hOK3
            exact ih checked2 s4 (by simpa using hOK3)
              fun g2 hg2 => hgs g2 (List.mem_cons_of_mem _ hg2)
    · simpa using hs

theorem stage1_noStop_fst {stop : Nat → Bool} (hstop : ∀ n, stop n = false)
    (n : Nat) (l : List Entry) :
    ∀ (i : Nat) (sg) (s : FDState),
    (stage1 stop n l i sg s).1 = some (groupBy sizeKey l sg) := by
  induction l with
  | nil => intro i sg s; rfl
  | cons e rest ih =>
    intro i sg s
    simp only [stage1, pollFD, hstop]
    exact ih (i + 1) (groupStep sizeKey sg e) _

theorem stage2Files_noStop_fst {stop : Nat → Bool}
    (hstop : ∀ n, stop n = false) (total : Nat) (l : List Entry) :
    ∀ (phg) (checked : Nat) (s : FDState),
    (stage2Files stop total l phg checked s).1 =
      some (groupBy phKey l phg, checked + l.length) := by
  induction l with
  | nil => intro phg checked s; simp [stage2Files, groupBy]
  | cons e rest ih =>
    intro phg checked s
    simp only [stage2Files, pollFD, hstop]
    rw [ih (groupStep phKey phg e) (checked + 1) _]
    simp only [groupBy, List.length_cons]
    congr 2
    omega

theorem stage3_noStop {stop : Nat → Bool} (hstop : ∀ n, stop n = false)
    (phg : List (List Nat × List Entry)) :
    ∀ s : FDState,
    (stage3 stop phg s).1 = false ∧
      ((stage3 stop phg s).2).duplicates = stage3Pure phg s.duplicates := by
  induction phg with
  | nil => intro s; exact ⟨rfl, rfl⟩
  | cons hd rest ih =>
    intro s
    obtain ⟨h, mf⟩ := hd
    simp only [stage3, stage3Pure]
    by_cases hlen : mf.length < 2
    · rw [if_pos hlen, if_pos hlen]
      exact ih s
    · rw [if_neg hlen, if_neg hlen]
      simp only [pollFD, hstop]
      exact ih _

theorem stage2_noStop {stop : Nat → Bool} (hstop : ∀ n, stop n = false)
    (total : Nat) (gs : List (List Entry)) :
    ∀ (checked : Nat) (s : FDState),
    (stage2 stop total gs checked s).1 = false ∧
      ((stage2 stop total gs checked s).2).duplicates =
        duplicatesPure gs s.duplicates := by
  induction gs with
  | nil => intro checked s; exact ⟨rfl, rfl⟩
  | cons g rest ih =>
    intro checked s
    simp only [stage2, pollFD, hstop, duplicatesPure]
    rcases h2 : stage2Files stop total g [] checked
        { s with polls := s.polls + 1 } with ⟨o, s2⟩
    have hfst := stage2Files_noStop_fst hstop total g [] checked
      { s with polls := s.polls + 1 }
    rw [h2] at hfst
    have hdup2 : s2.duplicates = s.duplicates := by
      have := stage2Files_duplicates stop total g [] checked
        { s with polls := s.polls + 1 }
      rw [h2] at this
      exact this
    cases o with
    | none => simp at hfst
    | some pc =>
      obtain ⟨phg, checked2⟩ := pc
      obtain ⟨hphg, hck⟩ : phg = groupBy phKey g [] ∧
          checked2 = checked + g.length := by
        simp only [Option.some.injEq, Prod.mk.injEq] at hfst
        exact ⟨hfst.1, hfst.2⟩
      try rw [h2]
      simp only
      rcases h3 : stage3 stop phg s2 with ⟨b3, s3⟩
      have h3l := stage3_noStop hstop phg s2
      rw [h3] at h3l
      obtain ⟨hb3, hdup3⟩ := h3l
      subst hb3
      simp only
      obtain ⟨ih1, ih2⟩ := ih checked2 s3
      refine ⟨ih1, ?_⟩
      rw [ih2, hdup3, hdup2, hphg]

/-- With a never-true stop flag, `find_duplicates` returns exactly the
dict described by the pure stage functions. -/
theorem findDuplicates_noStop_dups {stop : Nat → Bool}
    (hstop : ∀ n, stop n = false) (files : List Entry) :
    (findDuplicates files stop).duplicates =
      duplicatesPure (potentialDuplicates files) [] := by
  unfold findDuplicates
  by_cases hempty : files.isEmpty
  · simp only [if_pos hempty]
    have : files = [] := List.isEmpty_iff.mp hempty
    subst this
    rfl
  · simp only [if_neg hempty]
    split
    next s1 heq =>
      have hfst := stage1_noStop_fst hstop files.length files 0 []
        ⟨0, [("Grouping by size", 0, files.length)], []⟩
      rw [heq] at hfst
      simp at hfst
    next sg s1 heq =>
      have hfst := stage1_noStop_fst hstop files.length files 0 []
        ⟨0, [("Grouping by size", 0, files.length)], []⟩
      rw [heq] at hfst
      have hsg : sg = groupBy sizeKey files [] := by
        simpa using hfst
      have hdup1 : s1.duplicates = [] := by
        have := stage1_duplicates stop files.length files 0 []
          ⟨0, [("Grouping by size", 0, files.length)], []⟩
        rw [heq] at this
        exact this
      subst hsg
      by_cases hpot : ((((groupBy sizeKey files []).map Prod.snd).filter
          fun g => decide (2 ≤ g.length))).isEmpty
      · simp only [if_pos hpot]
        have hpot2 : potentialDuplicates files = [] :=
          List.isEmpty_iff.mp hpot
        rw [hpot2, hdup1]
        rfl
      · simp only [if_neg hpot]
        split
        next s2 heq2 =>
          have h2l := stage2_noStop hstop
            ((((groupBy sizeKey files []).map Prod.snd).filter
              fun g => decide (2 ≤ g.length)).map List.length).sum
            (((groupBy sizeKey files []).map Prod.snd).filter
              fun g => decide (2 ≤ g.length)) 0
            (emitFD s1 ("Calculating partial hashes", 0,
              ((((groupBy sizeKey files []).map Prod.snd).filter
                fun g => decide (2 ≤ g.length)).map List.length).sum))
          rw [heq2] at h2l
          simp at h2l
        next s2 heq2 =>
          have h2l := stage2_noStop hstop
            ((((groupBy sizeKey files []).map Prod.snd).filter
              fun g => decide (2 ≤ g.length)).map List.length).sum
            (((groupBy sizeKey files []).map Prod.snd).filter
              fun g => decide (2 ≤ g.length)) 0
            (emitFD s1 ("Calculating partial hashes", 0,
              ((((groupBy sizeKey files []).map Prod.snd).filter
                fun g => decide (2 ≤ g.length)).map List.length).sum))
          rw [heq2] at h2l
          obtain ⟨-, hdup2⟩ := h2l
          simp only [emitFD] at hdup2 ⊢
          rw [hdup2, hdup1]
          rfl

/-- The final-event shape of a completed (never-stopped) run that reached
stage 2. -/
theorem findDuplicates_noStop_lastEvent {stop : Nat → Bool}
    (hstop : ∀ n, stop n = false) (files : List Entry)
    (hpot : potentialDuplicates files ≠ []) :
    (findDuplicates files stop).events.getLast? =
      some ("Complete", totalToCheck files, totalToCheck files) := by
  have hne : files.isEmpty = false := by
    rcases files with - | ⟨e, rest⟩
    · exact absurd rfl hpot
    · rfl
  unfold findDuplicates
  simp only [if_neg (show ¬files.isEmpty = true by simp [hne])]
  split
  next s1 heq =>
    have hfst := stage1_noStop_fst hstop files.length files 0 []
      ⟨0, [("Grouping by size", 0, files.length)], []⟩
    rw [heq] at hfst
    simp at hfst
  next sg s1 heq =>
    have hfst := stage1_noStop_fst hstop files.length files 0 []
      ⟨0, [("Grouping by size", 0, files.length)], []⟩
    rw [heq] at hfst
    have hsg : sg = groupBy sizeKey files [] := by
      simpa using hfst
    subst hsg
    have hpotne : (((groupBy sizeKey files []).map Prod.snd).filter
        fun g => decide (2 ≤ g.length)).isEmpty = false := by
      have : potentialDuplicates files ≠ [] := hpot
      unfold potentialDuplicates sizeGroups at this
      simpa [List.isEmpty_iff] using this
    simp only [if_neg (show ¬(((groupBy sizeKey files []).map Prod.snd).filter
        fun g => decide (2 ≤ g.length)).isEmpty = true by simp [hpotne])]
    split
    next s2 heq2 =>
      have h2l := stage2_noStop hstop
        ((((groupBy sizeKey files []).map Prod.snd).filter
          fun g => decide (2 ≤ g.length)).map List.length).sum
        (((groupBy sizeKey files []).map Prod.snd).filter
          fun g => decide (2 ≤ g.length)) 0
        (emitFD s1 ("Calculating partial hashes", 0,
          ((((groupBy sizeKey files []).map Prod.snd).filter
            fun g => decide (2 ≤ g.length)).map List.length).sum))
      rw [heq2] at h2l
      simp at h2l
    next s2 heq2 =>
      show (emitFD s2 _).events.getLast? = _
      simp only [emitFD]
      rw [List.getLast?_concat]
      rfl

/-- With pairwise distinct sizes, each size bucket's filter keeps at most
one entry. -/
theorem length_filter_le_one_of_nodup_sizes {l : List Entry}
    (hnd : (l.map fun e => e.info.size).Nodup) (k : Nat) :
    (l.filter fun e => decide (sizeKey e = some k)).length ≤ 1 := by
  induction l with
  | nil => simp
  | cons e rest ih =>
    simp only [List.map_cons, List.nodup_cons] at hnd
    obtain ⟨hnotin, hndrest⟩ := hnd
    rw [List.filter_cons]
    by_cases hpred : decide (sizeKey e = some k) = true
    · rw [if_pos hpred]
      have hrest : (rest.filter fun x => decide (sizeKey x = some k)) = [] := by
        rw [List.filter_eq_nil_iff]
        intro x hx hxpred
        have hxk : x.info.size = k :=
          (sizeKey_eq_some.mp (by simpa using hxpred)).2
        have hek : e.info.size = k :=
          (sizeKey_eq_some.mp (by simpa using hpred)).2
        exact hnotin (List.mem_map.mpr ⟨x, hx, by rw [hxk, hek]⟩)
      rw [hrest]
      simp
    · rw [if_neg hpred]
      exact ih hndrest

theorem stage3_events (stop : Nat → Bool)
    (phg : List (List Nat × List Entry)) :
    ∀ s : FDState, ((stage3 stop phg s).2).events = s.events := by
  induction phg with
  | nil => intro s; rfl
  | cons hd rest ih =>
    intro s
    obtain ⟨h, mf⟩ := hd
    simp only [stage3]
    by_cases hlen : mf.length < 2
    · rw [if_pos hlen]
      exact ih s
    · rw [if_neg hlen]
      simp only [pollFD]
      cases hstop : stop s.polls
      · simp only
        rw [ih]
      · rfl

theorem stage1_events (stop : Nat → Bool) (n : Nat) (l : List Entry) :
    ∀ (i : Nat) (sg) (s : FDState),
    ∃ Δ : List Event,
      ((stage1 stop n l i sg s).2).events = s.events ++ Δ ∧
      (∀ ev ∈ Δ, ev.1 = "Grouping by size" ∧ i ≤ ev.2.1) ∧
      List.Chain' (· ≤ ·) (Δ.map fun ev => ev.2.1) := by
  induction l with
  | nil =>
    intro i sg s
    exact ⟨[], by simp [stage1], by simp, by simp⟩
  | cons e rest ih =>
    intro i sg s
    simp only [stage1, pollFD]
    cases hstop : stop s.polls
    · simp only
      by_cases hi : i % 100 = 0
      · rw [if_pos hi]
        obtain ⟨Δ, h1, h2, h3⟩ := ih (i + 1) (groupStep sizeKey sg e)
          (emitFD { s with polls := s.polls + 1 } ("Grouping by size", i, n))
        refine ⟨("Grouping by size", i, n) :: Δ, ?_, ?_, ?_⟩
        · rw [h1]
          simp [emitFD]
        · rintro ev hev
          rcases List.mem_cons.mp hev with rfl | hev2
          · exact ⟨rfl, le_refl i⟩
          · obtain ⟨ha, hb⟩ := h2 ev hev2
            exact ⟨ha, by omega⟩
        · rw [List.map_cons]
          rw [List.chain'_cons']
          refine ⟨fun y hy => ?_, h3⟩
          obtain ⟨ev, hev, hevy⟩ :=
            List.mem_map.mp (List.mem_of_mem_head? hy)
          obtain ⟨-, hb⟩ := h2 ev hev
          show i ≤ y
          omega
      · rw [if_neg hi]
        obtain ⟨Δ, h1, h2, h3⟩ := ih (i + 1) (groupStep sizeKey sg e)
          { s with polls := s.polls + 1 }
        refine ⟨Δ, by rw [h1], ?_, h3⟩
        rintro ev hev
        obtain ⟨ha, hb⟩ := h2 ev hev
        exact ⟨ha, by omega⟩
    · exact ⟨[], by simp, by simp, by simp⟩

theorem stage2Files_events (stop : Nat → Bool) (total : Nat)
    (l : List Entry) :
    ∀ (phg) (checked : Nat) (s : FDState),
    ∃ Δ : List Event,
      ((stage2Files stop total l phg checked s).2).events = s.events ++ Δ ∧
      (∀ ev ∈ Δ, ev.1 = "Calculating partial hashes" ∧
        checked + 1 ≤ ev.2.1 ∧ ev.2.1 ≤ checked + l.length) ∧
      List.Chain' (· ≤ ·) (Δ.map fun ev => ev.2.1) := by
  induction l with
  | nil =>
    intro phg checked s
    exact ⟨[], by simp [stage2Files], by simp, by simp⟩
  | cons e rest ih =>
    intro phg checked s
    simp only [stage2Files, pollFD]
    cases hstop : stop s.polls
    · simp only
      by_cases hc : (checked + 1) % 50 = 0
      · rw [if_pos hc]
        obtain ⟨Δ, h1, h2, h3⟩ := ih (groupStep phKey phg e) (checked + 1)
          (emitFD { s with polls := s.polls + 1 }
            ("Calculating partial hashes", checked + 1, total))
        refine ⟨("Calculating partial hashes", checked + 1, total) :: Δ,
          ?_, ?_, ?_⟩
        · rw [h1]
          simp [emitFD]
        · rintro ev hev
          rcases List.mem_cons.mp hev with rfl | hev2
          · refine ⟨rfl, ?_, ?_⟩
            · show checked + 1 ≤ checked + 1
              omega
            · show checked + 1 ≤ checked + (rest.length + 1)
              omega
          · obtain ⟨ha, hb, hcc⟩ := h2 ev hev2
            refine ⟨ha, by omega, ?_⟩
            show ev.2.1 ≤ checked + (rest.length + 1)
            omega
        · rw [List.map_cons]
          rw [List.chain'_cons']
          refine ⟨fun y hy => ?_, h3⟩
          obtain ⟨ev, hev, hevy⟩ :=
            List.mem_map.mp (List.mem_of_mem_head? hy)
          obtain ⟨-, hb, -⟩ := h2 ev hev
          show checked + 1 ≤ y
          omega
      · rw [if_neg hc]
        obtain ⟨Δ, h1, h2, h3⟩ := ih (groupStep phKey phg e) (checked + 1)
          { s with polls := s.polls + 1 }
        refine ⟨Δ, by rw [h1], ?_, h3⟩
        rintro ev hev
        obtain ⟨ha, hb, hcc⟩ := h2 ev hev
        refine ⟨ha, by omega, ?_⟩
        show ev.2.1 ≤ checked + (rest.length + 1)
        omega
    · exact ⟨[], by simp, by simp, by simp⟩

theorem stage2_events (stop : Nat → Bool) (total : Nat)
    (gs : List (List Entry)) :
    ∀ (checked : Nat) (s : FDState),
    ∃ Δ : List Event,
      ((stage2 stop total gs checked s).2).events = s.events ++ Δ ∧
      (∀ ev ∈ Δ, ev.1 = "Calculating partial hashes" ∧
        checked + 1 ≤ ev.2.1) ∧
      List.Chain' (· ≤ ·) (Δ.map fun ev => ev.2.1) := by
  induction gs with
  | nil =>
    intro checked s
    exact ⟨[], by simp [stage2], by simp, by simp⟩
  | cons g rest ih =>
    intro checked s
    simp only [stage2, pollFD]
    cases hstop : stop s.polls
    · simp only
      rcases h2 : stage2Files stop total g [] checked
          { s with polls := s.polls + 1 } with ⟨o, s2⟩
      obtain ⟨Δ1, he1, hp1, hc1⟩ := stage2Files_events stop total g []
        checked { s with polls := s.polls + 1 }
      rw [h2] at he1
      try rw [h2]
      cases o with
      | none => exact ⟨Δ1, he1, fun ev hev => ⟨(hp1 ev hev).1,
          (hp1 ev hev).2.1⟩, hc1⟩
      | some pc =>
        obtain ⟨phg, checked2⟩ := pc
        have hsome : (stage2Files stop total g [] checked
            { s with polls := s.polls + 1 }).1 = some (phg, checked2) := by
          rw [h2]
        obtain ⟨-, hck⟩ := stage2Files_some stop total g [] checked _
          phg checked2 hsome
        simp only
        rcases h3 : stage3 stop phg s2 with ⟨b3, s3⟩
        have he3 : s3.events = s2.events := by
          have := stage3_events stop phg s2
          rw [h3] at this
          exact this
        cases b3
        · simp only
          obtain ⟨Δ2, he2, hp2, hc2⟩ := ih checked2 s3
          refine ⟨Δ1 ++ Δ2, ?_, ?_, ?_⟩
          · rw [he2, he3, he1, List.append_assoc]
          · rintro ev hev
            rcases List.mem_append.mp hev with hev1 | hev2
            · exact ⟨(hp1 ev hev1).1, (hp1 ev hev1).2.1⟩
            · obtain ⟨ha, hb⟩ := hp2 ev hev2
              refine ⟨ha, ?_⟩
              omega
          · rw [List.map_append]
            apply List.Chain'.append hc1 hc2
            intro x hx y hy
            obtain ⟨ev1, hev1, rfl⟩ :=
              List.mem_map.mp (List.mem_of_mem_getLast? hx)
            obtain ⟨ev2, hev2, rfl⟩ :=
              List.mem_map.mp (List.mem_of_mem_head? hy)
            obtain ⟨-, -, hub⟩ := hp1 ev1 hev1
            obtain ⟨-, hlb⟩ := hp2 ev2 hev2
            omega
        · simp only
          exact ⟨Δ1, by rw [he3, he1], fun ev hev => ⟨(hp1 ev hev).1,
            (hp1 ev hev).2.1⟩, hc1⟩
    · exact ⟨[], by simp, by simp, by simp⟩

theorem stageCurrents_nil (st : String) : stageCurrents st [] = [] := rfl

theorem stageCurrents_append (st : String) (a b : List Event) :
    stageCurrents st (a ++ b) =
      stageCurrents st a ++ stageCurrents st b := by
  simp [stageCurrents]

theorem stageCurrents_cons (st : String) (ev : Event) (l : List Event) :
    stageCurrents st (ev :: l) =
      if ev.1 = st then ev.2.1 :: stageCurrents st l
      else stageCurrents st l := by
  unfold stageCurrents
  rw [List.filter_cons]
  by_cases h : ev.1 = st
  · simp [h]
  · simp [h]

theorem stageCurrents_uniform_ne {Δ : List Event} {nm : String}
    (h : ∀ ev ∈ Δ, ev.1 = nm) {st : String} (hne : nm ≠ st) :
    stageCurrents st Δ = [] := by
  unfold stageCurrents
  rw [List.filter_eq_nil_iff.mpr]
  · rfl
  · intro ev hev
    simp [h ev hev, hne]

theorem stageCurrents_uniform_eq {Δ : List Event} {nm : String}
    (h : ∀ ev ∈ Δ, ev.1 = nm) :
    stageCurrents nm Δ = Δ.map fun ev => ev.2.1 := by
  unfold stageCurrents
  congr 1
  rw [List.filter_eq_self.mpr]
  intro ev hev
  simp [h ev hev]

theorem chain_cons_zero {l : List Nat} (h : List.Chain' (· ≤ ·) l) :
    List.Chain' (· ≤ ·) (0 :: l) :=
  List.chain'_cons'.mpr ⟨fun y _ => Nat.zero_le y, h⟩

/-- Per-stage monotonicity for a run that ended during or after stage 1. -/
theorem chain_assembly_stage1 (Δ1 : List Event) (n : Nat) (st : String)
    (h1 : ∀ ev ∈ Δ1, ev.1 = "Grouping by size")
    (c1 : List.Chain' (· ≤ ·) (Δ1.map fun ev => ev.2.1)) :
    List.Chain' (· ≤ ·)
      (stageCurrents st (("Grouping by size", 0, n) :: Δ1)) := by
  rw [stageCurrents_cons]
  by_cases hg : st = "Grouping by size"
  · rw [if_pos (by simp [hg])]
    rw [hg, stageCurrents_uniform_eq h1]
    exact chain_cons_zero c1
  · rw [if_neg (by intro h; exact hg h.symm)]
    rw [stageCurrents_uniform_ne h1 (fun h => hg h.symm)]
    simp

/-- Per-stage monotonicity for a run that ended during stages 2-3 or at the
final callback (`tail` empty or the single terminal event). -/
theorem chain_assembly_stage2 (Δ1 Δ2 tail : List Event) (n total : Nat)
    (st : String)
    (h1 : ∀ ev ∈ Δ1, ev.1 = "Grouping by size")
    (c1 : List.Chain' (· ≤ ·) (Δ1.map fun ev => ev.2.1))
    (h2 : ∀ ev ∈ Δ2, ev.1 = "Calculating partial hashes")
    (c2 : List.Chain' (· ≤ ·) (Δ2.map fun ev => ev.2.1))
    (ht : tail = [] ∨ tail = [("Complete", total, total)]) :
    List.Chain' (· ≤ ·)
      (stageCurrents st (("Grouping by size", 0, n) ::
        (Δ1 ++ ("Calculating partial hashes", 0, total) ::
          (Δ2 ++ tail)))) := by
  have htail : ∀ s2 : String, s2 ≠ "Complete" → stageCurrents s2 tail = [] := by
    intro s2 hs2
    rcases ht with rfl | rfl
    · rfl
    · rw [stageCurrents_cons]
      rw [if_neg (by intro h; exact hs2 h.symm)]
      rfl
  rw [stageCurrents_cons, stageCurrents_append, stageCurrents_cons,
    stageCurrents_append]
  by_cases hg : st = "Grouping by size"
  · subst hg
    rw [if_pos rfl, if_neg (by simp)]
    rw [stageCurrents_uniform_eq h1]
    rw [stageCurrents_uniform_ne h2 (by decide)]
    rw [htail _ (by decide)]
    simpa using chain_cons_zero c1
  · rw [if_neg (by intro h; exact hg h.symm)]
    rw [stageCurrents_uniform_ne h1 (fun h => hg h.symm)]
    by_cases hp : st = "Calculating partial hashes"
    · subst hp
      rw [if_pos rfl]
      rw [stageCurrents_uniform_eq h2]
      rw [htail _ (by decide)]
      simpa using chain_cons_zero c2
    · rw [if_neg (by intro h; exact hp h.symm)]
      rw [stageCurrents_uniform_ne h2 (fun h => hp h.symm)]
      by_cases hc : st = "Complete"
      · subst hc
        rcases ht with rfl | rfl
        · simp [stageCurrents]
        · rw [stageCurrents_cons, if_pos rfl]
          simp [stageCurrents]
      · rw [htail _ hc]
        simp

theorem daysSince_nonneg {now ts : Int} (h : ts ≤ now) :
    0 ≤ daysSince now ts :=
  Int.fdiv_nonneg (by omega) (by norm_num)

theorem stalenessScore_nonneg_of_past (now : Int) (fi : FileInfo)
    (h : fi.lastAccessed ≤ now) : 0 ≤ stalenessScore now fi := by
  unfold stalenessScore
  apply mul_nonneg
  · positivity
  · exact_mod_cast daysSince_nonneg h

theorem fileLoop_files (stop : Nat → Bool) (dirpath : List String)
    (fns : List (String × Option (Nat × Int × Int))) :
    ∀ (s : ScanState) (fi : FileInfo),
    fi ∈ (fileLoop stop dirpath fns s).files →
    fi ∈ s.files ∨ ∃ fname sz ta tm,
      fi = ⟨dirpath ++ [fname], fname, sz, ta, tm, extOf fname⟩ := by
  induction fns with
  | nil => intro s fi h; exact Or.inl h
  | cons hd rest ih =>
    intro s fi h
    obtain ⟨fname, st⟩ := hd
    simp only [fileLoop, pollScan] at h
    cases hstop : stop s.polls
    · rw [hstop] at h
      simp only at h
      cases st with
      | none =>
        simp only at h
        exact ih { s with polls := s.polls + 1 } fi h
      | some stat =>
        obtain ⟨sz, ta, tm⟩ := stat
        simp only at h
        rcases ih _ fi h with hmem | hnew
        · by_cases hcnt : (s.count + 1) % 100 = 0
          · rw [if_pos hcnt] at hmem
            simp only [List.mem_append, List.mem_singleton] at hmem
            rcases hmem with hmem2 | rfl
            · exact Or.inl hmem2
            · exact Or.inr ⟨fname, sz, ta, tm, rfl⟩
          · rw [if_neg hcnt] at hmem
            simp only [List.mem_append, List.mem_singleton] at hmem
            rcases hmem with hmem2 | rfl
            · exact Or.inl hmem2
            · exact Or.inr ⟨fname, sz, ta, tm, rfl⟩
        · exact Or.inr hnew
    · rw [hstop] at h
      simp only at h
      exact Or.inl h

theorem scanLoop_files (stop : Nat → Bool)
    (ts : List (List String × List (String × Option (Nat × Int × Int)))) :
    ∀ (s : ScanState) (fi : FileInfo),
    fi ∈ (scanLoop stop ts s).files →
    fi ∈ s.files ∨ ∃ t ∈ ts, ∃ fname sz ta tm,
      fi = ⟨t.1 ++ [fname], fname, sz, ta, tm, extOf fname⟩ := by
  induction ts with
  | nil => intro s fi h; exact Or.inl h
  | cons hd rest ih =>
    intro s fi h
    obtain ⟨dpath, fns⟩ := hd
    simp only [scanLoop, pollScan] at h
    cases hstop : stop s.polls
    · rw [hstop] at h
      simp only at h
      rcases ih _ fi h with hmem | ⟨t, ht, w⟩
      · rcases fileLoop_files stop dpath fns _ fi hmem with hmem2 | ⟨fname, sz, ta, tm, hfi⟩
        · exact Or.inl hmem2
        · exact Or.inr ⟨(dpath, fns), by simp, fname, sz, ta, tm, hfi⟩
      · exact Or.inr ⟨t, List.mem_cons_of_mem _ ht, w⟩
    · rw [hstop] at h
      simp only at h
      exact Or.inl h

theorem walkChildren_paths (p : List String) (cs : List FSNode) :
    ∀ t ∈ walkChildren p cs, ∃ ds, ds ≠ [] ∧ t.1 = p ++ ds ∧
      ∀ d ∈ ds, skipDir d = false := by
  induction p, cs using walkChildren.induct with
  | case1 p =>
    intro t ht
    simp [walkChildren] at ht
  | case2 p nm st rest ih =>
    intro t ht
    rw [walkChildren] at ht
    exact ih t ht
  | case3 p name sub rest hskip ih =>
    intro t ht
    rw [walkChildren] at ht
    rw [if_pos hskip] at ht
    exact ih t ht
  | case4 p name sub rest hskip ih1 ih2 =>
    intro t ht
    rw [walkChildren] at ht
    rw [if_neg hskip] at ht
    simp only [List.cons_append, List.mem_cons, List.mem_append] at ht
    rcases ht with rfl | ht2 | ht3
    · exact ⟨[name], by simp, rfl,
        by simpa using Bool.of_not_eq_true hskip⟩
    · obtain ⟨ds, hne, hpath, hclean⟩ := ih1 t ht2
      refine ⟨name :: ds, by simp, ?_, ?_⟩
      · rw [hpath]
        simp
      · intro d hd
        rcases List.mem_cons.mp hd with rfl | hd2
        · exact Bool.of_not_eq_true hskip
        · exact hclean d hd2
    · exact ih2 t ht3

/-- Shape of every record produced by a scan: its path is the root followed
by a chain of never-skipped directory names and its own file name. -/
theorem scanDirectory_files_shape (rootP : List String) (tree : List FSNode)
    (stop : Nat → Bool) (fi : FileInfo)
    (h : fi ∈ (scanDirectory rootP tree stop).files) :
    ∃ ds fname, fi.path = (rootP ++ ds) ++ [fname] ∧ fi.name = fname ∧
      ∀ d ∈ ds, skipDir d = false := by
  unfold scanDirectory at h
  simp only at h
  rcases scanLoop_files stop _ _ fi h with hmem | ⟨t, ht, fname, sz, ta, tm, hfi⟩
  · simp at hmem
  · rcases List.mem_cons.mp ht with rfl | hwalk
    · refine ⟨[], fname, ?_, ?_, by simp⟩
      · rw [hfi]
        simp
      · rw [hfi]
    · obtain ⟨ds, -, hpath, hclean⟩ := walkChildren_paths rootP tree t hwalk
      refine ⟨ds, fname, ?_, ?_, hclean⟩
      · rw [hfi, hpath]
      · rw [hfi]

/-- A stop flag that is already true at the very first poll makes the scan
return no files. -/
theorem scanDirectory_stopped (rootP : List String) (tree : List FSNode)
    {stop : Nat → Bool} (h : stop 0 = true) :
    (scanDirectory rootP tree stop).files = [] := by
  unfold scanDirectory scanLoop
  simp only [pollScan, h]

/-- A stop flag that is already true at the very first poll makes
`find_duplicates` return an empty dict. -/
theorem findDuplicates_stopped (files : List Entry) {stop : Nat → Bool}
    (h : stop 0 = true) :
    (findDuplicates files stop).duplicates = [] := by
  unfold findDuplicates
  cases files with
  | nil => rfl
  | cons e rest =>
    simp [stage1, pollFD, h]

/-- Master invariant: every run of `find_duplicates`, cancelled or not,
returns a dict whose groups satisfy the DuplicateGroup invariant and whose
keys are unique. -/
theorem findDuplicates_dictOK (files : List Entry) (stop : Nat → Bool) :
    DictOK (findDuplicates files stop).duplicates := by
  unfold findDuplicates
  by_cases hempty : files.isEmpty
  · simp only [if_pos hempty]
    exact dictOK_nil
  · simp only [if_neg hempty]
    rcases h1 : stage1 stop files.length files 0 []
        ⟨0, [("Grouping by size", 0, files.length)], []⟩ with ⟨o1, s1⟩
    have hdup1 : s1.duplicates = [] := by
      have := stage1_duplicates stop files.length files 0 []
        ⟨0, [("Grouping by size", 0, files.length)], []⟩
      rw [h1] at this
      exact this
    cases o1 with
    | none =>
      simp only
      rw [hdup1]
      exact dictOK_nil
    | some sg =>
      have hsg : sg = groupBy sizeKey files [] :=
        stage1_some stop files.length files 0 [] _ sg (by rw [h1])
      simp only
      by_cases hpot : ((sg.map Prod.snd).filter
          fun g => decide (2 ≤ g.length)).isEmpty
      · simp only [if_pos hpot]
        rw [hdup1]
        exact dictOK_nil
      · simp only [if_neg hpot]
        have hgs : ∀ g ∈ (sg.map Prod.snd).filter
            (fun g => decide (2 ≤ g.length)),
            ∃ sz, 0 < sz ∧ ∀ e ∈ g, e.info.size = sz := by
          intro g hgmem
          have hg2 := List.mem_of_mem_filter hgmem
          obtain ⟨kg', hkg, hsnd⟩ := List.mem_map.mp hg2
          have hkg2 : (kg'.1, g) ∈ groupBy sizeKey files [] := by
            rw [← hsnd]
            rw [hsg] at hkg
            exact hkg
          obtain ⟨-, hne⟩ :=
            (groupBy_mem_iff sizeKey files kg'.1 g).mp hkg2
          obtain ⟨e0, he0⟩ := List.exists_mem_of_ne_nil g hne
          obtain ⟨-, hkey0⟩ := groupBy_mem_of_mem hkg2 he0
          obtain ⟨hpos0, hsz0⟩ := sizeKey_eq_some.mp hkey0
          refine ⟨kg'.1, hsz0 ▸ hpos0, fun e he => ?_⟩
          obtain ⟨-, hkey⟩ := groupBy_mem_of_mem hkg2 he
          exact (sizeKey_eq_some.mp hkey).2
        have hOK2 := stage2_dictOK stop
          ((((sg.map Prod.snd).filter fun g => decide (2 ≤ g.length)).map
            List.length).sum)
          ((sg.map Prod.snd).filter fun g => decide (2 ≤ g.length)) 0
          (emitFD s1 ("Calculating partial hashes", 0,
            (((sg.map Prod.snd).filter fun g =>
              decide (2 ≤ g.length)).map List.length).sum))
          (by simpa [emitFD, hdup1] using dictOK_nil) hgs
        split
        next s2 heq =>
          rw [heq] at hOK2
          simpa using hOK2
        next s2 heq =>
          rw [heq] at hOK2
          simpa [emitFD] using hOK2

/-- C1: for N ≥ 2 classified files with byte-identical readable content and
one common positive size, `find_duplicates` (run without cancellation and
without I/O errors) returns exactly one group holding all N of them, keyed
by the full-content hash; for an input whose files have pairwise distinct
sizes it returns an empty mapping. -/
theorem find_duplicates_round_trip (stop : Nat → Bool)
    (hstop : ∀ n, stop n = false) (c : List Nat) (sz : Nat)
    (l l2 : List Entry) :
    (2 ≤ l.length → 0 < sz →
      (∀ e ∈ l, e.content = some c ∧ e.info.size = sz) →
      (findDuplicates l stop).duplicates = [(c, l)]) ∧
    ((l2.map fun e => e.info.size).Nodup →
      (findDuplicates l2 stop).duplicates = []) := by
  constructor
  · intro hlen hsz hall
    rw [findDuplicates_noStop_dups hstop]
    have hne : l ≠ [] := by
      intro hnil
      rw [hnil] at hlen
      simp at hlen
    have hsg : groupBy sizeKey l [] = [(sz, l)] :=
      groupBy_homogeneous_nil sizeKey l sz hne (fun e he => by
        obtain ⟨-, hs⟩ := hall e he
        unfold sizeKey
        rw [hs, if_pos hsz])
    have hpot : potentialDuplicates l = [l] := by
      unfold potentialDuplicates sizeGroups
      rw [hsg]
      simp [hlen]
    rw [hpot]
    have hph : groupBy phKey l [] = [(c.take 4096, l)] :=
      groupBy_homogeneous_nil phKey l (c.take 4096) hne (fun e he => by
        obtain ⟨hc, -⟩ := hall e he
        simp [phKey, calculateFileHash, hc])
    have hfh : groupBy fhKey l [] = [(c, l)] :=
      groupBy_homogeneous_nil fhKey l c hne (fun e he => by
        obtain ⟨hc, -⟩ := hall e he
        simp [fhKey, calculateFileHash, hc])
    simp only [duplicatesPure]
    rw [hph]
    simp only [stage3Pure]
    rw [if_neg (by omega)]
    rw [hfh]
    simp only [addConfirmed]
    rw [if_pos hlen]
    rfl
  · intro hnd
    rw [findDuplicates_noStop_dups hstop]
    have hpot : potentialDuplicates l2 = [] := by
      unfold potentialDuplicates
      rw [List.filter_eq_nil_iff]
      intro g hg
      obtain ⟨kg, hkg, hsnd⟩ := List.mem_map.mp hg
      have hkg2 : (kg.1, g) ∈ groupBy sizeKey l2 [] := by
        rw [← hsnd]
        exact hkg
      obtain ⟨hfilter, -⟩ := (groupBy_mem_iff sizeKey l2 kg.1 g).mp hkg2
      have hle := length_filter_le_one_of_nodup_sizes hnd kg.1
      rw [← hfilter] at hle
      simp only [decide_eq_true_eq]
      omega
    rw [hpot]
    rfl

/-- Witness for C1 at concrete inputs: two identical 3-byte files form one
group; two files of distinct sizes form none. -/
theorem find_duplicates_round_trip_witness :
    (findDuplicates [entA, entB] noStop).duplicates =
      [([7, 7, 7], [entA, entB])] ∧
    (findDuplicates [entA, entC] noStop).duplicates = [] :=
  ⟨(find_duplicates_round_trip noStop (fun _ => rfl) [7, 7, 7] 3
      [entA, entB] [entA, entC]).1 (by decide) (by decide) (by decide),
   (find_duplicates_round_trip noStop (fun _ => rfl) [7, 7, 7] 3
      [entA, entB] [entA, entC]).2 (by decide)⟩

/-- C2: two files with equal size and equal partial hash but different full
content are never reported in the same group: stage 3 re-buckets every
partial-hash sub-bucket by full-content hash before a group is emitted. -/
theorem find_duplicates_no_false_positives (files : List Entry)
    (stop : Nat → Bool) (e1 e2 : Entry)
    (hsize : e1.info.size = e2.info.size)
    (hph : calculateFileHash e1 true = calculateFileHash e2 true)
    (hdiff : e1.content ≠ e2.content) :
    ∀ k g, (k, g) ∈ (findDuplicates files stop).duplicates →
      ¬(e1 ∈ g ∧ e2 ∈ g) := by
  rintro k g hmem ⟨h1, h2⟩
  obtain ⟨hOK, -⟩ := findDuplicates_dictOK files stop
  have h := hOK (k, g) hmem
  unfold GroupOK SizedOK at h
  obtain ⟨-, sz, -, hall⟩ := h
  exact hdiff (((hall e1 h1).1).trans ((hall e2 h2).1).symm)

/-- Witness for C2: two 4097-byte files agreeing on the first 4096 bytes
but differing in the last byte satisfy the hypotheses, and no returned
group contains both. -/
theorem find_duplicates_no_false_positives_witness :
    entP1.info.size = entP2.info.size ∧
    calculateFileHash entP1 true = calculateFileHash entP2 true ∧
    entP1.content ≠ entP2.content ∧
    ∀ k g, (k, g) ∈ (findDuplicates [entP1, entP2] noStop).duplicates →
      ¬(entP1 ∈ g ∧ entP2 ∈ g) := by
  have hph : calculateFileHash entP1 true = calculateFileHash entP2 true := by
    simp only [calculateFileHash, entP1, entP2, if_true]
    rw [List.take_append_of_le_length (by rw [List.length_replicate]),
        List.take_append_of_le_length (by rw [List.length_replicate])]
  have hdiff : entP1.content ≠ entP2.content := by
    simp only [entP1, entP2, Option.some.injEq, ne_eq]
    intro h
    have h2 := List.append_cancel_left h
    exact absurd (List.head_eq_of_cons_eq h2) (by norm_num)
  exact ⟨rfl, hph, hdiff,
    find_duplicates_no_false_positives [entP1, entP2] noStop entP1 entP2
      rfl hph hdiff⟩

/-- C3: every group in any returned mapping — partial results after
cancellation included — has at least 2 members, all with the full-content
hash equal to the group's key, all of one identical strictly positive
size. -/
theorem find_duplicates_group_invariant (files : List Entry)
    (stop : Nat → Bool) (k : List Nat) (g : List Entry)
    (hmem : (k, g) ∈ (findDuplicates files stop).duplicates) :
    2 ≤ g.length ∧
    (∀ e ∈ g, e.content = some k ∧ 0 < e.info.size) ∧
    (∀ e1 ∈ g, ∀ e2 ∈ g, e1.info.size = e2.info.size) := by
  obtain ⟨hOK, -⟩ := findDuplicates_dictOK files stop
  have h := hOK (k, g) hmem
  unfold GroupOK SizedOK at h
  obtain ⟨hlen, sz, hsz, hall⟩ := h
  refine ⟨hlen, fun e he => ⟨(hall e he).1, ?_⟩, fun e1 h1 e2 h2 => ?_⟩
  · rw [(hall e he).2]
    exact hsz
  · rw [(hall e1 h1).2, (hall e2 h2).2]

/-- Witness for C3 at a concrete duplicate pair. -/
theorem find_duplicates_group_invariant_witness :
    (([7, 7, 7], [entA, entB]) ∈
      (findDuplicates [entA, entB] noStop).duplicates) ∧
    (2 ≤ ([entA, entB] : List Entry).length ∧
      (∀ e ∈ ([entA, entB] : List Entry),
        e.content = some [7, 7, 7] ∧ 0 < e.info.size) ∧
      (∀ e1 ∈ ([entA, entB] : List Entry),
        ∀ e2 ∈ ([entA, entB] : List Entry),
        e1.info.size = e2.info.size)) :=
  ⟨by decide,
   find_duplicates_group_invariant [entA, entB] noStop [7, 7, 7]
     [entA, entB] (by decide)⟩

/-- C4 counterexample: a 1 MiB file whose last-access timestamp lies one
day in the future gets the strictly negative staleness score -1. -/
theorem staleness_score_negative_for_future :
    stalenessScore 0 futureFile < 0 := by
  have h : daysSince 0 futureFile.lastAccessed = -1 := by decide
  unfold stalenessScore
  rw [h]
  have hsz : futureFile.size = 1048576 := rfl
  rw [hsz]
  norm_num

/-- C4 (amended): the staleness score is non-negative for every file whose
last-access timestamp does not lie in the future of the analysis time;
for future timestamps the score can be negative. -/
theorem staleness_score_nonneg (now : Int) (fi : FileInfo)
    (h : fi.lastAccessed ≤ now) : 0 ≤ stalenessScore now fi :=
  stalenessScore_nonneg_of_past now fi h

/-- Witness for amended C4. -/
theorem staleness_score_nonneg_witness :
    entA.info.lastAccessed ≤ 0 ∧ 0 ≤ stalenessScore 0 entA.info :=
  ⟨by decide, staleness_score_nonneg 0 entA.info (by decide)⟩

/-- C5 counterexample: at a fixed zero-day age (file accessed today) the
score is 0 for every size, so it is not strictly increasing in size. -/
theorem staleness_not_strict_at_age_zero :
    entC.info.size < entA.info.size ∧
    entC.info.lastAccessed = entA.info.lastAccessed ∧
    ¬ stalenessScore 0 entC.info < stalenessScore 0 entA.info := by
  refine ⟨by decide, by decide, ?_⟩
  have h : daysSince 0 entA.info.lastAccessed = 0 := by decide
  unfold stalenessScore
  have h2 : entC.info.lastAccessed = entA.info.lastAccessed := by decide
  rw [h2, h]
  norm_num

/-- C5 (amended): for a fixed strictly positive whole-day age the staleness
score is strictly increasing in size, and a file accessed today (zero whole
days elapsed) scores exactly 0 regardless of size. -/
theorem staleness_strict_mono_in_size (now : Int) (f1 f2 : FileInfo)
    (hts : f1.lastAccessed = f2.lastAccessed) :
    (0 < daysSince now f1.lastAccessed → f1.size < f2.size →
      stalenessScore now f1 < stalenessScore now f2) ∧
    (daysSince now f1.lastAccessed = 0 →
      stalenessScore now f1 = 0 ∧ stalenessScore now f2 = 0) := by
  constructor
  · intro hd hs
    unfold stalenessScore
    rw [← hts]
    apply mul_lt_mul_of_pos_right
    · have hcast : (f1.size : ℚ) < f2.size := by exact_mod_cast hs
      gcongr
    · exact_mod_cast hd
  · intro hd
    unfold stalenessScore
    rw [← hts, hd]
    norm_num

/-- Witness for amended C5 at age 1 day and sizes 1 < 3. -/
theorem staleness_strict_mono_in_size_witness :
    (0 : Int) < daysSince 86400 entC.info.lastAccessed ∧
    entC.info.size < entA.info.size ∧
    stalenessScore 86400 entC.info < stalenessScore 86400 entA.info :=
  ⟨by decide, by decide,
   (staleness_strict_mono_in_size 86400 entC.info entA.info rfl).1
     (by decide) (by decide)⟩

/-- C6 counterexample: a non-empty, never-cancelled run with a single input
file ends on a "Grouping by size" callback, not on a terminal completion
callback with current = total. -/
theorem find_duplicates_no_terminal_callback :
    ¬ ∃ t, ((findDuplicates [entN] noStop).events).getLast? =
      some ("Complete", t, t) := by
  rintro ⟨t, ht⟩
  have h : ((findDuplicates [entN] noStop).events).getLast? =
      some ("Grouping by size", 0, 1) := by decide
  rw [h] at ht
  simp only [Option.some.injEq, Prod.mk.injEq] at ht
  exact absurd ht.1 (by decide)

/-- C6 (amended): for every run that is not cancelled and whose input has
at least one size group with two or more files (so stage 2 is reached), the
progress-callback sequence ends with a terminal "Complete" callback whose
current counter equals its total counter. -/
theorem find_duplicates_terminal_callback (files : List Entry)
    (stop : Nat → Bool) (hstop : ∀ n, stop n = false)
    (hpot : potentialDuplicates files ≠ []) :
    (findDuplicates files stop).events.getLast? =
      some ("Complete", totalToCheck files, totalToCheck files) :=
  findDuplicates_noStop_lastEvent hstop files hpot

/-- Witness for amended C6. -/
theorem find_duplicates_terminal_callback_witness :
    potentialDuplicates [entA, entB] ≠ [] ∧
    (findDuplicates [entA, entB] noStop).events.getLast? =
      some ("Complete", totalToCheck [entA, entB],
        totalToCheck [entA, entB]) :=
  ⟨by decide,
   find_duplicates_terminal_callback [entA, entB] noStop (fun _ => rfl)
     (by decide)⟩

/-- C7 counterexample: with 101 same-size files the callback currents are
[0, 0, 100, 0, 50, 100, 101] — the counter drops from 100 to 0 at the
stage-1/stage-2 boundary, so the full sequence is not monotonically
non-decreasing. -/
theorem find_duplicates_progress_counter_decreases :
    ¬ List.Chain' (· ≤ ·)
      (((findDuplicates files101 noStop).events).map fun ev => ev.2.1) := by
  have h : ((findDuplicates files101 noStop).events).map
      (fun ev => ev.2.1) = [0, 0, 100, 0, 50, 100, 101] := by decide
  rw [h]
  simp [List.chain'_cons]

/-- C7 (amended): within one invocation, the current counters of the
progress callbacks that share one stage label form a monotonically
non-decreasing sequence (the counter restarts from 0 when the next stage
begins). -/
theorem find_duplicates_stagewise_monotonic (files : List Entry)
    (stop : Nat → Bool) (st : String) :
    List.Chain' (· ≤ ·)
      (stageCurrents st (findDuplicates files stop).events) := by
  unfold findDuplicates
  by_cases hempty : files.isEmpty
  · simp only [if_pos hempty]
    simp [stageCurrents]
  · simp only [if_neg hempty]
    obtain ⟨Δ1, he1, hp1, hc1⟩ := stage1_events stop files.length files 0 []
      ⟨0, [("Grouping by size", 0, files.length)], []⟩
    split
    next s1 heq =>
      rw [heq] at he1
      simp only at he1 ⊢
      rw [he1]
      exact chain_assembly_stage1 Δ1 files.length st
        (fun ev hev => (hp1 ev hev).1) hc1
    next sg s1 heq =>
      rw [heq] at he1
      simp only at he1
      by_cases hpot : ((sg.map Prod.snd).filter
          fun g => decide (2 ≤ g.length)).isEmpty
      · simp only [if_pos hpot]
        rw [he1]
        exact chain_assembly_stage1 Δ1 files.length st
          (fun ev hev => (hp1 ev hev).1) hc1
      · simp only [if_neg hpot]
        have h2ev := stage2_events stop
          ((((sg.map Prod.snd).filter fun g => decide (2 ≤ g.length)).map
            List.length).sum)
          ((sg.map Prod.snd).filter fun g => decide (2 ≤ g.length)) 0
          (emitFD s1 ("Calculating partial hashes", 0,
            (((sg.map Prod.snd).filter fun g => decide (2 ≤ g.length)).map
              List.length).sum))
        obtain ⟨Δ2, he2, hp2, hc2⟩ := h2ev
        split
        next s2 heq2 =>
          rw [heq2] at he2
          simp only [emitFD] at he2 ⊢
          rw [he2, he1]
          have := chain_assembly_stage2 Δ1 Δ2 [] files.length
            ((((sg.map Prod.snd).filter fun g => decide (2 ≤ g.length)).map
              List.length).sum) st
            (fun ev hev => (hp1 ev hev).1) hc1
            (fun ev hev => (hp2 ev hev).1) hc2 (Or.inl rfl)
          simpa [List.append_assoc] using this
        next s2 heq2 =>
          rw [heq2] at he2
          simp only [emitFD] at he2 ⊢
          rw [he2, he1]
          have := chain_assembly_stage2 Δ1 Δ2
            [("Complete",
              (((sg.map Prod.snd).filter fun g => decide (2 ≤ g.length)).map
                List.length).sum,
              (((sg.map Prod.snd).filter fun g => decide (2 ≤ g.length)).map
                List.length).sum)] files.length
            ((((sg.map Prod.snd).filter fun g => decide (2 ≤ g.length)).map
              List.length).sum) st
            (fun ev hev => (hp1 ev hev).1) hc1
            (fun ev hev => (hp2 ev hev).1) hc2 (Or.inr rfl)
          simpa [List.append_assoc] using this

/-- C8: a stop flag that is already true at its very first poll makes
`find_duplicates` return an empty mapping and the scan return an empty
record list, both by a normal return (the model functions are total). -/
theorem early_stop_returns_empty (files : List Entry) (rootP : List String)
    (tree : List FSNode) (stop : Nat → Bool) (h : stop 0 = true) :
    (findDuplicates files stop).duplicates = [] ∧
    (scanDirectory rootP tree stop).files = [] :=
  ⟨findDuplicates_stopped files h, scanDirectory_stopped rootP tree h⟩

/-- Witness for C8 with the constantly-true stop flag. -/
theorem early_stop_returns_empty_witness :
    ((fun _ : Nat => true) 0 = true) ∧
    (findDuplicates [entA, entB] (fun _ => true)).duplicates = [] ∧
    (scanDirectory ["C:"] sampleTree1 (fun _ => true)).files = [] :=
  ⟨rfl,
   (early_stop_returns_empty [entA, entB] ["C:"] sampleTree1
     (fun _ => true) rfl).1,
   (early_stop_returns_empty [entA, entB] ["C:"] sampleTree1
     (fun _ => true) rfl).2⟩

/-- C9: every record a scan returns lies at `root ++ ds ++ [name]` where no
directory name in `ds` is on the skip list or starts with the hidden-file
marker — equivalently, a skipped directory is never descended into and no
file underneath one ever appears in the result, at any depth. -/
theorem scan_never_descends_skipped (rootP : List String)
    (tree : List FSNode) (stop : Nat → Bool) (fi : FileInfo)
    (h : fi ∈ (scanDirectory rootP tree stop).files) :
    ∃ ds fname, fi.path = (rootP ++ ds) ++ [fname] ∧ fi.name = fname ∧
      ∀ d ∈ ds, skipDir d = false :=
  scanDirectory_files_shape rootP tree stop fi h

/-- Witness for C9 on a one-file tree. -/
theorem scan_never_descends_skipped_witness :
    sampleScanned ∈ (scanDirectory [] sampleTree1 noStop).files ∧
    ∃ ds fname, sampleScanned.path = (([] : List String) ++ ds) ++ [fname] ∧
      sampleScanned.name = fname ∧ ∀ d ∈ ds, skipDir d = false := by
  have hw : walkChildren ([] : List String) sampleTree1 = [] := by
    rw [sampleTree1, walkChildren, walkChildren]
  have hmem : sampleScanned ∈
      (scanDirectory [] sampleTree1 noStop).files := by
    unfold scanDirectory
    rw [hw]
    decide
  exact ⟨hmem, scan_never_descends_skipped [] sampleTree1 noStop
    sampleScanned hmem⟩

/-- C10: groups in a returned mapping are pairwise disjoint — an entry
belonging to two returned groups forces them to be the same group under the
same key. -/
theorem find_duplicates_groups_disjoint (files : List Entry)
    (stop : Nat → Bool) (k1 k2 : List Nat) (g1 g2 : List Entry) (e : Entry)
    (h1 : (k1, g1) ∈ (findDuplicates files stop).duplicates)
    (h2 : (k2, g2) ∈ (findDuplicates files stop).duplicates)
    (he1 : e ∈ g1) (he2 : e ∈ g2) :
    k1 = k2 ∧ g1 = g2 := by
  obtain ⟨hOK, hnd⟩ := findDuplicates_dictOK files stop
  have ha := hOK (k1, g1) h1
  have hb := hOK (k2, g2) h2
  unfold GroupOK SizedOK at ha hb
  obtain ⟨-, sz1, -, hall1⟩ := ha
  obtain ⟨-, sz2, -, hall2⟩ := hb
  have hk : k1 = k2 := by
    have e1 := (hall1 e he1).1
    have e2 := (hall2 e he2).1
    rw [e1] at e2
    exact Option.some.inj e2
  subst hk
  exact ⟨rfl, alookup_eq_of_nodup_mem hnd h1 h2⟩

/-- Witness for C10 at a concrete duplicate pair. -/
theorem find_duplicates_groups_disjoint_witness :
    (([7, 7, 7], [entA, entB]) ∈
      (findDuplicates [entA, entB] noStop).duplicates) ∧
    entA ∈ ([entA, entB] : List Entry) ∧
    ([7, 7, 7] : List Nat) = [7, 7, 7] ∧
    ([entA, entB] : List Entry) = [entA, entB] :=
  ⟨by decide, by decide,
   (find_duplicates_groups_disjoint [entA, entB] noStop [7, 7, 7] [7, 7, 7]
     [entA, entB] [entA, entB] entA (by decide) (by decide) (by decide)
     (by decide)).1,
   (find_duplicates_groups_disjoint [entA, entB] noStop [7, 7, 7] [7, 7, 7]
     [entA, entB] [entA, entB] entA (by decide) (by decide) (by decide)
     (by decide)).2⟩

end DiskCleaner
